import Mathlib

/-!
Shallow embedding of the class `moleculardynamics::Ar_moleculardynamics<T>` from
`LJ_Argon_MD_OpenCL/moleculardynamics/Ar_moleculardynamics.h`.

The C++ class is a template over the scalar type `T`; the embedding is likewise
parametric over a linear ordered field `α`.  The external square-root routine
(`std::sqrt` on the host, `sqrt` inside the OpenCL kernels) is passed as an explicit
function parameter `sqrt : α → α`, so all definitions stay executable; theorems that
need genuine square-root facts take them as hypotheses about the values actually used.
-/

universe u v

/-- Modelled from the spec: `utility::Vector4` (its header `vector4.h` is not among the
sources) is "a 4-wide floating-point tuple (x,y,z,w unused)"; only the three used
components are modelled. -/
structure Vec3 (α : Type u) where
  x : α
  y : α
  z : α
deriving DecidableEq

variable {α : Type u} [LinearOrderedField α]

/-- Componentwise addition, as in `float4` / `Vector4` arithmetic. -/
def Vec3.add (a b : Vec3 α) : Vec3 α := ⟨a.x + b.x, a.y + b.y, a.z + b.z⟩

/-- Componentwise subtraction. -/
def Vec3.sub (a b : Vec3 α) : Vec3 α := ⟨a.x - b.x, a.y - b.y, a.z - b.z⟩

/-- Multiplication of a vector by a scalar broadcast to all lanes,
`v * (float4)(c)`. -/
def Vec3.muls (a : Vec3 α) (c : α) : Vec3 α := ⟨a.x * c, a.y * c, a.z * c⟩

/-- Division of a vector by a scalar broadcast to all lanes, `v / c`. -/
def Vec3.divs (a : Vec3 α) (c : α) : Vec3 α := ⟨a.x / c, a.y / c, a.z / c⟩

instance : Zero (Vec3 α) := ⟨⟨0, 0, 0⟩⟩

instance : Add (Vec3 α) := ⟨Vec3.add⟩

theorem Vec3.zero_def : (0 : Vec3 α) = ⟨0, 0, 0⟩ := rfl

theorem Vec3.add_def (a b : Vec3 α) : a + b = ⟨a.x + b.x, a.y + b.y, a.z + b.z⟩ := rfl

instance : AddCommMonoid (Vec3 α) where
  add_assoc a b c := by
    simp only [Vec3.add_def, Vec3.mk.injEq]
    refine ⟨?_, ?_, ?_⟩ <;> ring
  zero_add a := by
    cases a
    simp [Vec3.add_def, Vec3.zero_def]
  add_zero a := by
    cases a
    simp [Vec3.add_def, Vec3.zero_def]
  add_comm a b := by
    simp only [Vec3.add_def, Vec3.mk.injEq]
    refine ⟨?_, ?_, ?_⟩ <;> ring
  nsmul := nsmulRec

/-- `norm2` (private member): squared Euclidean norm of the three coordinates. -/
def norm2 (x y z : α) : α := x * x + y * y + z * z

/-- `ALPHA`: Woodcock temperature-scaling coefficient, `0.2` in the source. -/
def ALPHA : α := 1 / 5

/-- `DT`: the time increment, `0.001` in the source. -/
def DT : α := 1 / 1000

/-- `dt2 = DT * DT` (constructor initializer). -/
def dt2 : α := DT * DT

/-- `rc_`: cutoff radius, `2.5` in the source. -/
def rc : α := 5 / 2

/-- `rc2_ = rc_ * rc_` (constructor initializer). -/
def rc2 : α := rc * rc

/-- `rcm6_ = pow(rc_, -6.0)` (constructor initializer). -/
def rcm6 : α := rc ^ (-6 : ℤ)

/-- `rcm12_ = pow(rc_, -12.0)` (constructor initializer). -/
def rcm12 : α := rc ^ (-12 : ℤ)

/-- `Vrc_ = 4.0 * (rcm12_ - rcm6_)` (constructor initializer): the energy shift at the
cutoff. -/
def Vrc : α := 4 * (rcm12 - rcm6)

/-- `ncp_`: number of image cells in each direction, fixed to `3` in the source. -/
def ncp : ℤ := 3

/-- The iteration order of `for (i = -ncp; i <= ncp; i++)` with `ncp_ = 3`:
the list `[-3, -2, -1, 0, 1, 2, 3]`. -/
def cellRange : List ℤ := (List.range 7).map (fun t => (t : ℤ) - 3)

/-- Loop body shared by the OpenCL `force` kernel (the accumulation into `f[n]`) —
the image shift `s`, the self-interaction test, the cutoff test and the
Lennard-Jones force `Fr = 48 rm13 - 24 rm7`, exactly as in the kernel source. -/
def forceBody (sqrt : α → α) (rc2v periodiclen : α) (r : ℕ → Vec3 α)
    (n m : ℕ) (i j k : ℤ) (acc : Vec3 α) : Vec3 α :=
  let s : Vec3 α := ⟨(i : α) * periodiclen, (j : α) * periodiclen, (k : α) * periodiclen⟩
  if n ≠ m ∨ i ≠ 0 ∨ j ≠ 0 ∨ k ≠ 0 then
    let d := (r n).sub ((r m).add s)
    let r2 := d.x * d.x + d.y * d.y + d.z * d.z
    if r2 ≤ rc2v then
      let rr := sqrt r2
      let rm6 := 1 / (r2 * r2 * r2)
      let rm7 := rm6 / rr
      let rm12 := rm6 * rm6
      let rm13 := rm12 / rr
      let Fr := 48 * rm13 - 24 * rm7
      acc + (d.divs rr).muls Fr
    else acc
  else acc

/-- One work item of the OpenCL `force` kernel: for atom `n`, iterate over every atom
`m` and every image cell `(i,j,k)` in `[-ncp,ncp]^3`, accumulating into `acc`
(the kernel's `f[n] +=` starts from the value left by `init_force`). -/
def force (sqrt : α → α) (rc2v periodiclen : α) (r : ℕ → Vec3 α)
    (numatom : ℕ) (n : ℕ) (acc : Vec3 α) : Vec3 α :=
  (List.range numatom).foldl (fun acc m =>
    cellRange.foldl (fun acc i =>
      cellRange.foldl (fun acc j =>
        cellRange.foldl (fun acc k =>
          forceBody sqrt rc2v periodiclen r n m i j k acc) acc) acc) acc) acc

/-- The OpenCL `init_force` kernel, enqueued over global range `NumAtom_`:
`f[i] = (float4)(0.0f)` for every work item `i < numatom`. -/
def init_force (f : ℕ → Vec3 α) (numatom : ℕ) : ℕ → Vec3 α :=
  fun idx => if idx < numatom then 0 else f idx

/-! ### Generic loop-to-sum helpers -/

/-- A left fold whose step adds a function of the element equals the start value plus
the sum of that function over the list. -/
theorem foldl_step_sum {M : Type u} [AddCommMonoid M] {β : Type v} (step : M → β → M)
    (g : β → M) (h : ∀ a b, step a b = a + g b) :
    ∀ (l : List β) (a : M), l.foldl step a = a + (l.map g).sum := by
  intro l
  induction l with
  | nil => intro a; simp
  | cons b l ih =>
    intro a
    simp [List.foldl_cons, ih, h, add_assoc]

/-- Summing a function over `List.range N` is the `Finset.range N` sum. -/
theorem sum_map_range {M : Type u} [AddCommMonoid M] (g : ℕ → M) :
    ∀ N, ((List.range N).map g).sum = ∑ m ∈ Finset.range N, g m := by
  intro N
  induction N with
  | zero => simp
  | succ N ih => simp [List.range_succ, Finset.sum_range_succ, ih]

/-- The traversal order of `cellRange` has no duplicates. -/
theorem cellRange_nodup : cellRange.Nodup := by decide

/-- As a set, `cellRange` is the integer interval `[-3, 3]`. -/
theorem cellRange_toFinset : cellRange.toFinset = Finset.Icc (-3 : ℤ) 3 := by decide

/-- Summing a function over the `cellRange` loop is the sum over `[-3, 3] ∩ ℤ`. -/
theorem sum_map_cellRange {M : Type u} [AddCommMonoid M] (g : ℤ → M) :
    (cellRange.map g).sum = ∑ i ∈ Finset.Icc (-3 : ℤ) 3, g i := by
  rw [← cellRange_toFinset, List.sum_toFinset g cellRange_nodup]

/-! ### The pair/image enumeration of the force and energy loops -/

/-- The image shift `s` for image cell `(i,j,k)`:
`s = ((i)*periodiclen, (j)*periodiclen, (k)*periodiclen)`. -/
def imageShift (periodiclen : α) (i j k : ℤ) : Vec3 α :=
  ⟨(i : α) * periodiclen, (j : α) * periodiclen, (k : α) * periodiclen⟩

/-- The displacement `d = r[n] - (r[m] + s)` for the pair `(n, p)` with
`p = (m, i, j, k)`. -/
def displ (periodiclen : α) (r : ℕ → Vec3 α) (n : ℕ) (p : ℕ × ℤ × ℤ × ℤ) : Vec3 α :=
  (r n).sub ((r p.1).add (imageShift periodiclen p.2.1 p.2.2.1 p.2.2.2))

/-- The squared distance `r2 = d.x*d.x + d.y*d.y + d.z*d.z` of the pair `(n, p)`. -/
def dist2 (periodiclen : α) (r : ℕ → Vec3 α) (n : ℕ) (p : ℕ × ℤ × ℤ × ℤ) : α :=
  let d := displ periodiclen r n p
  d.x * d.x + d.y * d.y + d.z * d.z

/-- The exclusion test of both loops: the contribution of `p = (m, i, j, k)` to atom
`n` is computed iff `n != m || i != 0 || j != 0 || k != 0`. -/
def nonSelf (n : ℕ) (p : ℕ × ℤ × ℤ × ℤ) : Prop :=
  n ≠ p.1 ∨ p.2.1 ≠ 0 ∨ p.2.2.1 ≠ 0 ∨ p.2.2.2 ≠ 0

instance (n : ℕ) (p : ℕ × ℤ × ℤ × ℤ) : Decidable (nonSelf n p) := by
  unfold nonSelf
  infer_instance

/-- The index set traversed by the inner loops for one atom `n`: every atom index
`m < numatom` paired with every image cell of `[-3, 3]^3`. -/
def pairCube (numatom : ℕ) : Finset (ℕ × ℤ × ℤ × ℤ) :=
  Finset.range numatom ×ˢ
    (Finset.Icc (-3 : ℤ) 3 ×ˢ (Finset.Icc (-3 : ℤ) 3 ×ˢ Finset.Icc (-3 : ℤ) 3))

/-- The value added to `f[n]` by one iteration of the force loops, written as a
function of the pair index: zero on the excluded self pair and outside the cutoff,
`(d / r) * (48*rm13 - 24*rm7)` otherwise (with `rm13`, `rm7` formed exactly as in the
kernel from `rm6 = 1/(r2*r2*r2)` and `r = sqrt(r2)`). -/
def forceTerm (sqrt : α → α) (rc2v periodiclen : α) (r : ℕ → Vec3 α)
    (n : ℕ) (p : ℕ × ℤ × ℤ × ℤ) : Vec3 α :=
  if nonSelf n p then
    let d := displ periodiclen r n p
    let r2 := dist2 periodiclen r n p
    if r2 ≤ rc2v then
      let rr := sqrt r2
      let rm6 := 1 / (r2 * r2 * r2)
      (d.divs rr).muls (48 * ((rm6 * rm6) / rr) - 24 * (rm6 / rr))
    else 0
  else 0

/-- One iteration of the force loop body adds exactly `forceTerm`. -/
theorem forceBody_eq_add_term (sqrt : α → α) (rc2v periodiclen : α) (r : ℕ → Vec3 α)
    (n m : ℕ) (i j k : ℤ) (acc : Vec3 α) :
    forceBody sqrt rc2v periodiclen r n m i j k acc =
      acc + forceTerm sqrt rc2v periodiclen r n (m, i, j, k) := by
  simp only [forceBody, forceTerm, nonSelf, dist2, displ, imageShift]
  by_cases h1 : n ≠ m ∨ i ≠ 0 ∨ j ≠ 0 ∨ k ≠ 0
  · simp only [if_pos h1]
    split
    · rfl
    · exact (add_zero acc).symm
  · simp only [if_neg h1, add_zero]

/-- The `force` kernel work item for atom `n` adds to its accumulator the sum of
`forceTerm` over the whole pair/image enumeration. -/
theorem force_eq_acc_add_sum (sqrt : α → α) (rc2v periodiclen : α) (r : ℕ → Vec3 α)
    (numatom : ℕ) (n : ℕ) (acc : Vec3 α) :
    force sqrt rc2v periodiclen r numatom n acc =
      acc + ∑ p ∈ pairCube numatom, forceTerm sqrt rc2v periodiclen r n p := by
  have h4 : ∀ (a : Vec3 α) (m : ℕ) (i j : ℤ),
      cellRange.foldl (fun acc k => forceBody sqrt rc2v periodiclen r n m i j k acc) a =
        a + ∑ k ∈ Finset.Icc (-3 : ℤ) 3,
          forceTerm sqrt rc2v periodiclen r n (m, i, j, k) := by
    intro a m i j
    rw [foldl_step_sum _ (fun k => forceTerm sqrt rc2v periodiclen r n (m, i, j, k))
      (fun a k => forceBody_eq_add_term sqrt rc2v periodiclen r n m i j k a) cellRange a,
      sum_map_cellRange]
  have h3 : ∀ (a : Vec3 α) (m : ℕ) (i : ℤ),
      cellRange.foldl (fun acc j =>
        cellRange.foldl (fun acc k =>
          forceBody sqrt rc2v periodiclen r n m i j k acc) acc) a =
        a + ∑ j ∈ Finset.Icc (-3 : ℤ) 3, ∑ k ∈ Finset.Icc (-3 : ℤ) 3,
          forceTerm sqrt rc2v periodiclen r n (m, i, j, k) := by
    intro a m i
    rw [foldl_step_sum _ (fun j => ∑ k ∈ Finset.Icc (-3 : ℤ) 3,
        forceTerm sqrt rc2v periodiclen r n (m, i, j, k))
      (fun a j => h4 a m i j) cellRange a, sum_map_cellRange]
  have h2 : ∀ (a : Vec3 α) (m : ℕ),
      cellRange.foldl (fun acc i =>
        cellRange.foldl (fun acc j =>
          cellRange.foldl (fun acc k =>
            forceBody sqrt rc2v periodiclen r n m i j k acc) acc) acc) a =
        a + ∑ i ∈ Finset.Icc (-3 : ℤ) 3, ∑ j ∈ Finset.Icc (-3 : ℤ) 3,
            ∑ k ∈ Finset.Icc (-3 : ℤ) 3,
          forceTerm sqrt rc2v periodiclen r n (m, i, j, k) := by
    intro a m
    rw [foldl_step_sum _ (fun i => ∑ j ∈ Finset.Icc (-3 : ℤ) 3,
        ∑ k ∈ Finset.Icc (-3 : ℤ) 3, forceTerm sqrt rc2v periodiclen r n (m, i, j, k))
      (fun a i => h3 a m i) cellRange a, sum_map_cellRange]
  unfold force
  rw [foldl_step_sum _ (fun m => ∑ i ∈ Finset.Icc (-3 : ℤ) 3,
      ∑ j ∈ Finset.Icc (-3 : ℤ) 3, ∑ k ∈ Finset.Icc (-3 : ℤ) 3,
      forceTerm sqrt rc2v periodiclen r n (m, i, j, k))
    (fun a m => h2 a m) (List.range numatom) acc, sum_map_range]
  simp only [pairCube, Finset.sum_product]

/-! ### Host-side simulation state -/

/-- The member variables of `Ar_moleculardynamics<T>` that the member functions read
and write.  The per-atom `std::vector`s (all of length `NumAtom_`) are modelled as
functions from the atom index; entries at indices `≥ NumAtom` are never touched.
The device mirrors (`*_dev_`) are copied from the host arrays before each kernel and
copied back afterwards, so only their net effect on the host arrays is modelled. -/
structure MDState (α : Type u) where
  r : ℕ → Vec3 α
  r1 : ℕ → Vec3 α
  V : ℕ → Vec3 α
  F : ℕ → Vec3 α
  NumAtom : ℕ
  periodiclen : α
  Tg : α
  Up : α
  Uk : α
  Utot : α
  Tc : α
  t : α
  MD_iter : ℕ

/-- One iteration of the potential-energy loop body in `Calc_Forces` (the active part
of the `tbb::parallel_for` lambda): the force accumulation present in the OpenCL
kernel is commented out there, and only
`Up.local() += 0.5 * (4.0 * (rm12 - rm6) - Vrc_)` survives. -/
def upBody (periodiclen Vrcv : α) (r : ℕ → Vec3 α)
    (n m : ℕ) (i j k : ℤ) (acc : α) : α :=
  let sx := (i : α) * periodiclen
  let sy := (j : α) * periodiclen
  let sz := (k : α) * periodiclen
  if n ≠ m ∨ i ≠ 0 ∨ j ≠ 0 ∨ k ≠ 0 then
    let dx := (r n).x - ((r m).x + sx)
    let dy := (r n).y - ((r m).y + sy)
    let dz := (r n).z - ((r m).z + sz)
    let r2 := norm2 dx dy dz
    if r2 ≤ rc2 then
      let rm6 := 1 / (r2 * r2 * r2)
      let rm12 := rm6 * rm6
      acc + (1 / 2) * (4 * (rm12 - rm6) - Vrcv)
    else acc
  else acc

/-- The `tbb::parallel_for` of `Calc_Forces`: thread-local partial sums over the atom
index `n` are combined with `std::plus` at the end; in exact arithmetic the combined
value is the full nested sum, here written as the sequential fold from `Up_ = 0.0`. -/
def Up_loop (periodiclen Vrcv : α) (r : ℕ → Vec3 α) (numatom : ℕ) : α :=
  (List.range numatom).foldl (fun acc n =>
    (List.range numatom).foldl (fun acc m =>
      cellRange.foldl (fun acc i =>
        cellRange.foldl (fun acc j =>
          cellRange.foldl (fun acc k =>
            upBody periodiclen Vrcv r n m i j k acc) acc) acc) acc) acc) 0

/-- The device portion of `Calc_Forces`: copy `F_` and `r_` to the device, run the
`init_force` kernel and then the `force` kernel over `NumAtom_` work items, and (at
the end of `Calc_Forces`) copy `F_dev_` back into `F_`.  Net effect on the host
state: the force array is replaced by the kernel output; nothing else changes. -/
def Calc_Forces_GPU (sqrt : α → α) (st : MDState α) : MDState α :=
  let Fdev := init_force st.F st.NumAtom
  { st with
    F := fun n =>
      if n < st.NumAtom then
        force sqrt rc2 st.periodiclen st.r st.NumAtom n (Fdev n)
      else Fdev n }

/-- The host (TBB) portion of `Calc_Forces`: `Up_ = 0.0` followed by the parallel
loop and the `combine`; it writes only `Up_`.  The force updates inside its lambda
are commented out in the source. -/
def Calc_Forces_TBB (st : MDState α) : MDState α :=
  { st with Up := Up_loop st.periodiclen Vrc st.r st.NumAtom }

/-- `Calc_Forces`: the GPU kernels produce the forces, then the TBB loop produces
the potential energy. -/
def Calc_Forces (sqrt : α → α) (st : MDState α) : MDState α :=
  Calc_Forces_TBB (Calc_Forces_GPU sqrt st)

/-! ### The integrator -/

/-- One work item of the OpenCL `move_atoms1` kernel (modified Euler, first step):
sequential in-place updates, returned as `(r[n], r1[n], V[n])` after the item. -/
def move_atoms1 (deltat s : α) (rv r1v Vv fv : Vec3 α) : Vec3 α × Vec3 α × Vec3 α :=
  let dt := deltat
  let dtsq := dt * dt
  let r1n := rv
  let Vn := Vv.muls s
  let rn := rv.add ((Vn.muls dt).add ((fv.muls (1 / 2)).muls dtsq))
  let Vn2 := Vn.add (fv.muls dt)
  (rn, r1n, Vn2)

/-- One work item of the OpenCL `move_atoms` kernel (Verlet, later steps): `r[n]` is
snapshotted into `rtmp` before being overwritten, `V[n]` is computed from the new
`r[n]` and the old `r1[n]`, and `r1[n]` becomes the snapshot. -/
def move_atoms (deltat : α) (rv r1v Vv fv : Vec3 α) : Vec3 α × Vec3 α × Vec3 α :=
  let dt := deltat
  let dtsq := dt * dt
  let rtmp := rv
  let rn := ((rv.muls 2).sub r1v).add (fv.muls dtsq)
  let Vn := ((rn.sub r1v).muls (1 / 2)).divs dt
  (rn, rtmp, Vn)

/-- `Move_Atoms` up to (but not including) the periodic wrap: the kinetic energy,
total energy and temperature are computed from the velocities as they are at entry,
then the `switch (MD_iter_)` dispatches `move_atoms1` (case 1) or `move_atoms`
(default) over `NumAtom_` work items. -/
def Move_Atoms_core (sqrt : α → α) (st : MDState α) : MDState α :=
  let Uk0 := (List.range st.NumAtom).foldl
    (fun acc n => acc + norm2 (st.V n).x (st.V n).y (st.V n).z) 0
  let Uk1 := Uk0 * (1 / 2)
  let Utot1 := Uk1 + st.Up
  let Tc1 := Uk1 / ((3 / 2) * (st.NumAtom : α))
  if st.MD_iter = 1 then
    let s := sqrt ((st.Tg + ALPHA * (Tc1 - st.Tg)) / Tc1)
    { st with
      Uk := Uk1, Utot := Utot1, Tc := Tc1,
      r := fun n => if n < st.NumAtom then
        (move_atoms1 DT s (st.r n) (st.r1 n) (st.V n) (st.F n)).1 else st.r n,
      r1 := fun n => if n < st.NumAtom then
        (move_atoms1 DT s (st.r n) (st.r1 n) (st.V n) (st.F n)).2.1 else st.r1 n,
      V := fun n => if n < st.NumAtom then
        (move_atoms1 DT s (st.r n) (st.r1 n) (st.V n) (st.F n)).2.2 else st.V n }
  else
    { st with
      Uk := Uk1, Utot := Utot1, Tc := Tc1,
      r := fun n => if n < st.NumAtom then
        (move_atoms DT (st.r n) (st.r1 n) (st.V n) (st.F n)).1 else st.r n,
      r1 := fun n => if n < st.NumAtom then
        (move_atoms DT (st.r n) (st.r1 n) (st.V n) (st.F n)).2.1 else st.r1 n,
      V := fun n => if n < st.NumAtom then
        (move_atoms DT (st.r n) (st.r1 n) (st.V n) (st.F n)).2.2 else st.V n }

/-- One axis of the periodic-boundary loop at the end of `Move_Atoms`: if the
position component exceeds `periodiclen_` both it and the matching prior-position
component are shifted down by `periodiclen_`; if it is negative both are shifted up. -/
def wrap_pair (L x x1 : α) : α × α :=
  if x > L then (x - L, x1 - L)
  else if x < 0 then (x + L, x1 + L)
  else (x, x1)

/-- The periodic-boundary loop body for one atom: the three axes are handled
independently (`for (i = 0; i < 3; i++)`). -/
def wrap3 (L : α) (p p1 : Vec3 α) : Vec3 α × Vec3 α :=
  let ax := wrap_pair L p.x p1.x
  let ay := wrap_pair L p.y p1.y
  let az := wrap_pair L p.z p1.z
  (⟨ax.1, ay.1, az.1⟩, ⟨ax.2, ay.2, az.2⟩)

/-- `Move_Atoms`: diagnostics and branch (`Move_Atoms_core`), then the periodic
wrap over `NumAtom_` atoms, then `t_ = MD_iter_ * DT` and `MD_iter_++`. -/
def Move_Atoms (sqrt : α → α) (st : MDState α) : MDState α :=
  let st1 := Move_Atoms_core sqrt st
  { st1 with
    r := fun n => if n < st1.NumAtom then
      (wrap3 st1.periodiclen (st1.r n) (st1.r1 n)).1 else st1.r n,
    r1 := fun n => if n < st1.NumAtom then
      (wrap3 st1.periodiclen (st1.r n) (st1.r1 n)).2 else st1.r1 n,
    t := (st1.MD_iter : α) * DT,
    MD_iter := st1.MD_iter + 1 }

/-! ### Lattice and velocity initialization -/

/-- The fill loop of `MD_initPos`: cell by cell (loop order `i`, `j`, `k`, counter
`n` advancing by 4 per cell), 4 basis atoms per unit cell at offsets `(0,0,0)`,
`(lat/2,lat/2,0)`, `(0,lat/2,lat/2)`, `(lat/2,0,lat/2)` relative to the cell corner
`(i,j,k)*lat`. -/
def initPosRaw (Nc : ℕ) (lat : α) : List (Vec3 α) :=
  (List.range Nc).flatMap (fun i =>
    (List.range Nc).flatMap (fun j =>
      (List.range Nc).flatMap (fun k =>
        let sx := (i : α) * lat
        let sy := (j : α) * lat
        let sz := (k : α) * lat
        [⟨sx, sy, sz⟩,
         ⟨(1 / 2) * lat + sx, (1 / 2) * lat + sy, sz⟩,
         ⟨sx, (1 / 2) * lat + sy, (1 / 2) * lat + sz⟩,
         ⟨(1 / 2) * lat + sx, sy, (1 / 2) * lat + sz⟩])))

/-- `MD_initPos`: fill the positions (`initPosRaw`), set `NumAtom_` to the count,
then subtract the centroid (`sx`, `sy`, `sz` divided by `NumAtom_`) from every
position.  Returns the final positions and `NumAtom_`. -/
def MD_initPos (Nc : ℕ) (lat : α) : List (Vec3 α) × ℕ :=
  let raw : List (Vec3 α) := initPosRaw Nc lat
  let NumAtom := raw.length
  let cx := (raw.foldl (fun a p => a + p.x) 0) / (NumAtom : α)
  let cy := (raw.foldl (fun a p => a + p.y) 0) / (NumAtom : α)
  let cz := (raw.foldl (fun a p => a + p.z) 0) / (NumAtom : α)
  (raw.map (fun p => ⟨p.x - cx, p.y - cy, p.z - cz⟩), NumAtom)

/-- The `generator4` fill of `MD_initVel`: the random source
`myrandom::MyRand mr(-1.0, 1.0)` is external, so the raw triples it draws are taken
as an input list (one per atom).  Each triple is normalized and scaled to the common
speed `v = sqrt(3*Tg)`. -/
def initVelPre (sqrt : α → α) (Tg : α) (rnds : List (Vec3 α)) : List (Vec3 α) :=
  let v := sqrt (3 * Tg)
  rnds.map (fun u =>
    let tmp := 1 / sqrt (norm2 u.x u.y u.z)
    ⟨v * (u.x * tmp), v * (u.y * tmp), v * (u.z * tmp)⟩)

/-- `MD_initVel`: generate the velocities (`initVelPre`), then subtract the per-axis
mean over all atoms from every velocity. -/
def MD_initVel (sqrt : α → α) (Tg : α) (rnds : List (Vec3 α)) : List (Vec3 α) :=
  let Vpre : List (Vec3 α) := initVelPre sqrt Tg rnds
  let NumAtom := Vpre.length
  let sx := (Vpre.foldl (fun a w => a + w.x) 0) / (NumAtom : α)
  let sy := (Vpre.foldl (fun a w => a + w.y) 0) / (NumAtom : α)
  let sz := (Vpre.foldl (fun a w => a + w.z) 0) / (NumAtom : α)
  Vpre.map (fun w => ⟨w.x - sx, w.y - sy, w.z - sz⟩)

/-! ### Frame of the force evaluation (claim C10) -/

/-- Claim C10: a call to `Calc_Forces` modifies only the force array and the
potential energy — the positions, prior positions, velocities, step counter,
simulated time, kinetic energy and atom count are unchanged. -/
theorem Calc_Forces_frame (sqrt : α → α) (st : MDState α) :
    (Calc_Forces sqrt st).r = st.r ∧
    (Calc_Forces sqrt st).r1 = st.r1 ∧
    (Calc_Forces sqrt st).V = st.V ∧
    (Calc_Forces sqrt st).MD_iter = st.MD_iter ∧
    (Calc_Forces sqrt st).t = st.t ∧
    (Calc_Forces sqrt st).Uk = st.Uk ∧
    (Calc_Forces sqrt st).NumAtom = st.NumAtom :=
  ⟨rfl, rfl, rfl, rfl, rfl, rfl, rfl⟩

/-- Claim C7 (amended): every integrator call updates the diagnostics as
`Uk = 0.5 * sum of |V|^2`, `Utot = Uk + Up` with `Up` taken unchanged from the
preceding force evaluation, and `Tc = Uk / (1.5 * NumAtom)`, where the velocities are
those at the start of the call (the energy/temperature computation precedes the
position/velocity update in `Move_Atoms`); the step counter increments by exactly one
after the call and the simulated time becomes (pre-increment step counter) * dt. -/
theorem Move_Atoms_diagnostics (sqrt : α → α) (st : MDState α) :
    (Move_Atoms sqrt st).Uk =
      (1 / 2) * ∑ nn ∈ Finset.range st.NumAtom,
        norm2 (st.V nn).x (st.V nn).y (st.V nn).z ∧
    (Move_Atoms sqrt st).Utot = (Move_Atoms sqrt st).Uk + st.Up ∧
    (Move_Atoms sqrt st).Tc =
      (Move_Atoms sqrt st).Uk / ((3 / 2) * (st.NumAtom : α)) ∧
    (Move_Atoms sqrt st).Up = st.Up ∧
    (Move_Atoms sqrt st).MD_iter = st.MD_iter + 1 ∧
    (Move_Atoms sqrt st).t = (st.MD_iter : α) * DT := by
  have hUk0 : (List.range st.NumAtom).foldl
      (fun acc n => acc + norm2 (st.V n).x (st.V n).y (st.V n).z) 0 =
        ∑ nn ∈ Finset.range st.NumAtom, norm2 (st.V nn).x (st.V nn).y (st.V nn).z := by
    rw [foldl_step_sum _ (fun n => norm2 (st.V n).x (st.V n).y (st.V n).z)
      (fun a b => rfl) (List.range st.NumAtom) 0, zero_add, sum_map_range]
  by_cases h1 : st.MD_iter = 1 <;>
    simp [Move_Atoms, Move_Atoms_core, h1, hUk0, mul_comm]

@[simp] theorem Vec3.x_zero : (0 : Vec3 α).x = 0 := rfl

@[simp] theorem Vec3.y_zero : (0 : Vec3 α).y = 0 := rfl

@[simp] theorem Vec3.z_zero : (0 : Vec3 α).z = 0 := rfl

def sqrtId : ℚ → ℚ := fun x => x

/-- One-atom state used to exhibit the evaluation order of the diagnostics. -/
def stC7 : MDState ℚ :=
  { r := fun _ => ⟨5, 0, 0⟩, r1 := fun _ => ⟨3, 0, 0⟩, V := fun _ => ⟨1, 0, 0⟩,
    F := fun _ => 0, NumAtom := 1, periodiclen := 100, Tg := 1, Up := 0,
    Uk := 0, Utot := 0, Tc := 0, t := 0, MD_iter := 2 }

/-- Claim C7, counterexample to the claimed ordering: after a `Move_Atoms` call the
stored kinetic energy is computed from the velocities at entry, not from the
freshly written velocities, and on this one-atom state the two values differ
(`1/2` versus `2000000`). -/
theorem Move_Atoms_diagnostics_counterexample :
    (Move_Atoms sqrtId stC7).Uk ≠
      (1 / 2) * ∑ nn ∈ Finset.range (Move_Atoms sqrtId stC7).NumAtom,
        norm2 ((Move_Atoms sqrtId stC7).V nn).x ((Move_Atoms sqrtId stC7).V nn).y
          ((Move_Atoms sqrtId stC7).V nn).z := by
  have h1 : (Move_Atoms sqrtId stC7).Uk = 1 / 2 := by
    norm_num [Move_Atoms, Move_Atoms_core, stC7, norm2, List.range_succ]
  have h2 : (Move_Atoms sqrtId stC7).NumAtom = 1 := rfl
  have h3 : (Move_Atoms sqrtId stC7).V 0 = ⟨2000, 0, 0⟩ := by
    norm_num [Move_Atoms, Move_Atoms_core, stC7, move_atoms, Vec3.muls, Vec3.divs,
      Vec3.sub, Vec3.add, Vec3.zero_def, DT, norm2, List.range_succ]
  rw [h1, h2, Finset.sum_range_one, h3]
  norm_num [norm2]

/-- Claim C2: on every integrator call with step counter at least 2 and every atom,
the update stage computes `new_r = 2*r - prior_r + dt^2*F` and
`new_V = 0.5*(new_r - prior_r)/dt` with `prior_r` the value at entry, and sets the
prior position to the pre-update `r` (snapshot before overwrite); the velocity is
unchanged by the subsequent periodic wrap, so it also holds for the full call. -/
theorem Move_Atoms_verlet (sqrt : α → α) (st : MDState α) (n : ℕ)
    (hiter : 2 ≤ st.MD_iter) (hn : n < st.NumAtom) :
    (Move_Atoms_core sqrt st).r n =
      ⟨2 * (st.r n).x - (st.r1 n).x + dt2 * (st.F n).x,
       2 * (st.r n).y - (st.r1 n).y + dt2 * (st.F n).y,
       2 * (st.r n).z - (st.r1 n).z + dt2 * (st.F n).z⟩ ∧
    (Move_Atoms_core sqrt st).V n =
      ⟨(1 / 2) * (((Move_Atoms_core sqrt st).r n).x - (st.r1 n).x) / DT,
       (1 / 2) * (((Move_Atoms_core sqrt st).r n).y - (st.r1 n).y) / DT,
       (1 / 2) * (((Move_Atoms_core sqrt st).r n).z - (st.r1 n).z) / DT⟩ ∧
    (Move_Atoms_core sqrt st).r1 n = st.r n ∧
    (Move_Atoms sqrt st).V n = (Move_Atoms_core sqrt st).V n := by
  have h1 : ¬ st.MD_iter = 1 := by omega
  refine ⟨?_, ?_, ?_, ?_⟩
  · simp only [Move_Atoms_core, h1, if_false, if_pos hn, move_atoms, Vec3.muls,
      Vec3.sub, Vec3.add, Vec3.divs, dt2, if_neg]
    simp only [Vec3.mk.injEq]
    refine ⟨by ring, by ring, by ring⟩
  · simp only [Move_Atoms_core, h1, if_false, if_pos hn, move_atoms, Vec3.muls,
      Vec3.sub, Vec3.add, Vec3.divs, if_neg]
    simp only [Vec3.mk.injEq]
    refine ⟨by ring, by ring, by ring⟩
  · simp only [Move_Atoms_core, h1, if_false, if_pos hn, move_atoms, if_neg]
  · simp only [Move_Atoms, Move_Atoms_core, h1, if_false, if_neg]

def stC2 : MDState ℚ :=
  { r := fun _ => ⟨4, 5, 6⟩, r1 := fun _ => ⟨1, 2, 3⟩, V := fun _ => ⟨1, 1, 1⟩,
    F := fun _ => ⟨2, 0, 0⟩, NumAtom := 1, periodiclen := 100, Tg := 1, Up := 0,
    Uk := 0, Utot := 0, Tc := 0, t := 0, MD_iter := 2 }

/-- Claim C2, witness: the Verlet theorem instantiated on a concrete one-atom
state with step counter 2. -/
theorem Move_Atoms_verlet_witness :
    2 ≤ stC2.MD_iter ∧ 0 < stC2.NumAtom ∧
    ((Move_Atoms_core sqrtId stC2).r 0 =
      ⟨2 * (stC2.r 0).x - (stC2.r1 0).x + dt2 * (stC2.F 0).x,
       2 * (stC2.r 0).y - (stC2.r1 0).y + dt2 * (stC2.F 0).y,
       2 * (stC2.r 0).z - (stC2.r1 0).z + dt2 * (stC2.F 0).z⟩ ∧
    (Move_Atoms_core sqrtId stC2).V 0 =
      ⟨(1 / 2) * (((Move_Atoms_core sqrtId stC2).r 0).x - (stC2.r1 0).x) / DT,
       (1 / 2) * (((Move_Atoms_core sqrtId stC2).r 0).y - (stC2.r1 0).y) / DT,
       (1 / 2) * (((Move_Atoms_core sqrtId stC2).r 0).z - (stC2.r1 0).z) / DT⟩ ∧
    (Move_Atoms_core sqrtId stC2).r1 0 = stC2.r 0 ∧
    (Move_Atoms sqrtId stC2).V 0 = (Move_Atoms_core sqrtId stC2).V 0) :=
  ⟨by decide, by decide, Move_Atoms_verlet sqrtId stC2 0 (by decide) (by decide)⟩

/-- Claim C3: on the integrator call with step counter 1, for every atom the
rescale factor `s = sqrt((Tg + 0.2*(Tc - Tg))/Tc)` is formed from the temperature
`Tc` computed in the same call, the current position is saved into the prior
position, the velocity is scaled by `s`, then `r += dt*V + 0.5*dt^2*F` and
`V += dt*F` (with the scaled velocity); and every call increments the step counter
by one, so the bootstrap branch can never run again within a run. -/
theorem Move_Atoms_bootstrap (sqrt : α → α) (st : MDState α) (n : ℕ)
    (h1 : st.MD_iter = 1) (hn : n < st.NumAtom) :
    ((Move_Atoms_core sqrt st).r1 n = st.r n ∧
     (Move_Atoms_core sqrt st).V n =
       ⟨sqrt ((st.Tg + ALPHA * ((Move_Atoms_core sqrt st).Tc - st.Tg)) /
            (Move_Atoms_core sqrt st).Tc) * (st.V n).x + DT * (st.F n).x,
        sqrt ((st.Tg + ALPHA * ((Move_Atoms_core sqrt st).Tc - st.Tg)) /
            (Move_Atoms_core sqrt st).Tc) * (st.V n).y + DT * (st.F n).y,
        sqrt ((st.Tg + ALPHA * ((Move_Atoms_core sqrt st).Tc - st.Tg)) /
            (Move_Atoms_core sqrt st).Tc) * (st.V n).z + DT * (st.F n).z⟩ ∧
     (Move_Atoms_core sqrt st).r n =
       ⟨(st.r n).x + DT * (sqrt ((st.Tg + ALPHA * ((Move_Atoms_core sqrt st).Tc - st.Tg)) /
            (Move_Atoms_core sqrt st).Tc) * (st.V n).x) + (1 / 2) * dt2 * (st.F n).x,
        (st.r n).y + DT * (sqrt ((st.Tg + ALPHA * ((Move_Atoms_core sqrt st).Tc - st.Tg)) /
            (Move_Atoms_core sqrt st).Tc) * (st.V n).y) + (1 / 2) * dt2 * (st.F n).y,
        (st.r n).z + DT * (sqrt ((st.Tg + ALPHA * ((Move_Atoms_core sqrt st).Tc - st.Tg)) /
            (Move_Atoms_core sqrt st).Tc) * (st.V n).z) + (1 / 2) * dt2 * (st.F n).z⟩) ∧
    (∀ st2 : MDState α, (Move_Atoms sqrt st2).MD_iter = st2.MD_iter + 1) := by
  constructor
  · refine ⟨?_, ?_, ?_⟩ <;>
      simp only [Move_Atoms_core, if_pos h1, if_pos hn, move_atoms1, Vec3.muls,
        Vec3.sub, Vec3.add, Vec3.divs, dt2, Vec3.mk.injEq] <;>
      refine ⟨by ring, by ring, by ring⟩
  · intro st2
    by_cases h2 : st2.MD_iter = 1 <;> simp [Move_Atoms, Move_Atoms_core, h2]

def stC3 : MDState ℚ :=
  { r := fun _ => ⟨1, 2, 3⟩, r1 := fun _ => 0, V := fun _ => ⟨1, 1, 1⟩,
    F := fun _ => ⟨0, 2, 0⟩, NumAtom := 1, periodiclen := 100, Tg := 1, Up := 0,
    Uk := 0, Utot := 0, Tc := 0, t := 0, MD_iter := 1 }

/-- Claim C3, witness: the bootstrap theorem instantiated on a concrete one-atom
state with step counter 1. -/
theorem Move_Atoms_bootstrap_witness :
    stC3.MD_iter = 1 ∧ 0 < stC3.NumAtom ∧
    (((Move_Atoms_core sqrtId stC3).r1 0 = stC3.r 0 ∧
     (Move_Atoms_core sqrtId stC3).V 0 =
       ⟨sqrtId ((stC3.Tg + ALPHA * ((Move_Atoms_core sqrtId stC3).Tc - stC3.Tg)) /
            (Move_Atoms_core sqrtId stC3).Tc) * (stC3.V 0).x + DT * (stC3.F 0).x,
        sqrtId ((stC3.Tg + ALPHA * ((Move_Atoms_core sqrtId stC3).Tc - stC3.Tg)) /
            (Move_Atoms_core sqrtId stC3).Tc) * (stC3.V 0).y + DT * (stC3.F 0).y,
        sqrtId ((stC3.Tg + ALPHA * ((Move_Atoms_core sqrtId stC3).Tc - stC3.Tg)) /
            (Move_Atoms_core sqrtId stC3).Tc) * (stC3.V 0).z + DT * (stC3.F 0).z⟩ ∧
     (Move_Atoms_core sqrtId stC3).r 0 =
       ⟨(stC3.r 0).x + DT * (sqrtId ((stC3.Tg + ALPHA *
            ((Move_Atoms_core sqrtId stC3).Tc - stC3.Tg)) /
            (Move_Atoms_core sqrtId stC3).Tc) * (stC3.V 0).x) + (1 / 2) * dt2 * (stC3.F 0).x,
        (stC3.r 0).y + DT * (sqrtId ((stC3.Tg + ALPHA *
            ((Move_Atoms_core sqrtId stC3).Tc - stC3.Tg)) /
            (Move_Atoms_core sqrtId stC3).Tc) * (stC3.V 0).y) + (1 / 2) * dt2 * (stC3.F 0).y,
        (stC3.r 0).z + DT * (sqrtId ((stC3.Tg + ALPHA *
            ((Move_Atoms_core sqrtId stC3).Tc - stC3.Tg)) /
            (Move_Atoms_core sqrtId stC3).Tc) * (stC3.V 0).z) + (1 / 2) * dt2 * (stC3.F 0).z⟩) ∧
    (∀ st2 : MDState ℚ, (Move_Atoms sqrtId st2).MD_iter = st2.MD_iter + 1)) :=
  ⟨rfl, by decide, Move_Atoms_bootstrap sqrtId stC3 0 rfl (by decide)⟩

/-- Claim C4 (amended): the wrap step is a no-op on a component already in
`[0, L)`, maps `L + eps` to `eps` and (for positive box length) `-eps` to `L - eps`,
always shifts the prior-position component by exactly the same amount as the
position component, and `Move_Atoms` applies this wrap to every atom after the
update stage.  A wrapped component lands in the closed interval `[0, L]` whenever
the unwrapped value lies in `[-L, 2L]`; membership in the half-open `[0, L)`
claimed by the spec can fail on the boundary (see the counterexample). -/
theorem Move_Atoms_wrap (L x x1 e : α) :
    (-L ≤ x → x ≤ 2 * L → 0 ≤ (wrap_pair L x x1).1 ∧ (wrap_pair L x x1).1 ≤ L) ∧
    (0 ≤ x → x < L → wrap_pair L x x1 = (x, x1)) ∧
    (0 < e → wrap_pair L (L + e) x1 = (e, x1 - L)) ∧
    (0 < L → 0 < e → wrap_pair L (-e) x1 = (L - e, x1 + L)) ∧
    ((wrap_pair L x x1).1 - x = (wrap_pair L x x1).2 - x1) ∧
    (∀ (sqrt : α → α) (st : MDState α) (n : ℕ), n < st.NumAtom →
      (Move_Atoms sqrt st).r n =
        (wrap3 st.periodiclen ((Move_Atoms_core sqrt st).r n)
          ((Move_Atoms_core sqrt st).r1 n)).1 ∧
      (Move_Atoms sqrt st).r1 n =
        (wrap3 st.periodiclen ((Move_Atoms_core sqrt st).r n)
          ((Move_Atoms_core sqrt st).r1 n)).2) := by
  refine ⟨?_, ?_, ?_, ?_, ?_, ?_⟩
  · intro hlo hhi
    unfold wrap_pair
    by_cases hgt : x > L
    · simp only [if_pos hgt]
      constructor <;> [linarith; linarith]
    · simp only [if_neg hgt]
      by_cases hneg : x < 0
      · simp only [if_pos hneg]
        constructor <;> [linarith; linarith]
      · simp only [if_neg hneg]
        constructor <;> [linarith; linarith]
  · intro h0 hL
    unfold wrap_pair
    rw [if_neg (by linarith), if_neg (by linarith)]
  · intro he
    unfold wrap_pair
    rw [if_pos (by linarith)]
    simp
  · intro hL he
    unfold wrap_pair
    rw [if_neg (by linarith), if_pos (by linarith)]
    simp only [Prod.mk.injEq]
    constructor <;> ring_nf
  · unfold wrap_pair
    by_cases hgt : x > L
    · simp only [if_pos hgt]
      ring_nf
    · simp only [if_neg hgt]
      by_cases hneg : x < 0
      · simp only [if_pos hneg]
        ring_nf
      · simp only [if_neg hneg]
        ring_nf
  · intro sqrt st n hn
    have hN : (Move_Atoms_core sqrt st).NumAtom = st.NumAtom := by
      by_cases h2 : st.MD_iter = 1 <;> simp [Move_Atoms_core, h2]
    have hL : (Move_Atoms_core sqrt st).periodiclen = st.periodiclen := by
      by_cases h2 : st.MD_iter = 1 <;> simp [Move_Atoms_core, h2]
    constructor
    · show (if n < (Move_Atoms_core sqrt st).NumAtom then _ else _) = _
      rw [hN, if_pos hn, hL]
    · show (if n < (Move_Atoms_core sqrt st).NumAtom then _ else _) = _
      rw [hN, if_pos hn, hL]

def stC4 : MDState ℚ :=
  { r := fun _ => ⟨5, 1, 1⟩, r1 := fun _ => 0, V := fun _ => 0,
    F := fun _ => 0, NumAtom := 1, periodiclen := 10, Tg := 1, Up := 0,
    Uk := 0, Utot := 0, Tc := 0, t := 0, MD_iter := 2 }

/-- Claim C4, witness: the wrap properties instantiated at `L = 10`, `x = 3`,
`x1 = 1`, `eps = 2` and on a concrete one-atom `Move_Atoms` call. -/
theorem Move_Atoms_wrap_witness :
    (0 ≤ (wrap_pair (10 : ℚ) 3 1).1 ∧ (wrap_pair (10 : ℚ) 3 1).1 ≤ 10) ∧
    wrap_pair (10 : ℚ) 3 1 = (3, 1) ∧
    wrap_pair (10 : ℚ) (10 + 2) 1 = (2, 1 - 10) ∧
    wrap_pair (10 : ℚ) (-2) 1 = (10 - 2, 1 + 10) ∧
    (Move_Atoms sqrtId stC4).r 0 =
      (wrap3 stC4.periodiclen ((Move_Atoms_core sqrtId stC4).r 0)
        ((Move_Atoms_core sqrtId stC4).r1 0)).1 :=
  ⟨(Move_Atoms_wrap 10 3 1 2).1 (by norm_num) (by norm_num),
   (Move_Atoms_wrap 10 3 1 2).2.1 (by norm_num) (by norm_num),
   (Move_Atoms_wrap 10 3 1 2).2.2.1 (by norm_num),
   (Move_Atoms_wrap 10 3 1 2).2.2.2.1 (by norm_num) (by norm_num),
   ((Move_Atoms_wrap (10 : ℚ) 3 1 2).2.2.2.2.2 sqrtId stC4 0 (by decide)).1⟩

/-- Claim C4, counterexample to the half-open invariant: a Verlet step that lands
exactly on the box length stays there, so after the completed step the component
equals `L` and is not inside `[0, L)`. -/
theorem Move_Atoms_wrap_counterexample :
    ((Move_Atoms sqrtId stC4).r 0).x = stC4.periodiclen ∧
    ¬ (0 ≤ ((Move_Atoms sqrtId stC4).r 0).x ∧
        ((Move_Atoms sqrtId stC4).r 0).x < stC4.periodiclen) := by
  have h : ((Move_Atoms sqrtId stC4).r 0).x = 10 := by
    norm_num [Move_Atoms, Move_Atoms_core, stC4, move_atoms, wrap3, wrap_pair,
      Vec3.muls, Vec3.sub, Vec3.add, Vec3.divs, DT, dt2, Vec3.zero_def,
      List.range_succ, norm2]
  have hL : stC4.periodiclen = 10 := rfl
  rw [h, hL]
  norm_num

/-! ### Recentering helpers -/

theorem length_flatMap_const {γ : Type u} {δ : Type v} (l : List γ) (f : γ → List δ)
    (c : ℕ) (h : ∀ a, (f a).length = c) : (l.flatMap f).length = l.length * c := by
  induction l with
  | nil => simp
  | cons b l ih =>
    simp only [List.flatMap_cons, List.length_append, ih, h, List.length_cons]
    ring

theorem list_sum_map_sub {γ : Type u} (l : List γ) (g : γ → α) (c : α) :
    (l.map (fun b => g b - c)).sum = (l.map g).sum - (l.length : α) * c := by
  induction l with
  | nil => simp
  | cons b l ih =>
    simp only [List.map_cons, List.sum_cons, ih, List.length_cons]
    push_cast
    ring

/-- Subtracting the mean (as accumulated by the source's `for` loop and divided by
the length) from every entry makes the sum vanish, for any nonempty list. -/
theorem recenter_fold_zero {γ : Type u} (l : List γ) (g : γ → α) (hl : l ≠ []) :
    (l.map (fun b =>
      g b - (l.foldl (fun a b2 => a + g b2) 0) / (l.length : α))).sum = 0 := by
  have hfold : l.foldl (fun a b2 => a + g b2) 0 = (l.map g).sum := by
    rw [foldl_step_sum _ g (fun a b => rfl) l 0, zero_add]
  have hlen : (l.length : α) ≠ 0 :=
    Nat.cast_ne_zero.mpr (List.length_pos.mpr hl).ne'
  rw [hfold, list_sum_map_sub l g _]
  field_simp

/-- The number of positions filled by the `MD_initPos` loops. -/
theorem initPosRaw_length (Nc : ℕ) (lat : α) :
    (initPosRaw Nc lat).length = 4 * Nc ^ 3 := by
  unfold initPosRaw
  rw [length_flatMap_const _ _ (Nc * (Nc * 4))]
  · simp only [List.length_range]
    ring
  · intro a
    rw [length_flatMap_const _ _ (Nc * 4)]
    · simp only [List.length_range]
    · intro b
      rw [length_flatMap_const _ _ 4]
      · simp only [List.length_range]
      · intro c2
        rfl

/-- Claim C8: `MD_initPos` fills exactly `NumAtom = 4*Nc^3` positions (four basis
atoms per unit cell) and, after the centroid subtraction, the componentwise sum of
all positions is exactly zero, for every `Nc >= 1` and any lattice constant. -/
theorem MD_initPos_centroid (Nc : ℕ) (lat : α) (hNc : 1 ≤ Nc) :
    (MD_initPos Nc lat).2 = 4 * Nc ^ 3 ∧
    (MD_initPos Nc lat).1.length = 4 * Nc ^ 3 ∧
    ((MD_initPos Nc lat).1.map (fun p => p.x)).sum = 0 ∧
    ((MD_initPos Nc lat).1.map (fun p => p.y)).sum = 0 ∧
    ((MD_initPos Nc lat).1.map (fun p => p.z)).sum = 0 := by
  have hne : initPosRaw Nc lat ≠ ([] : List (Vec3 α)) := by
    intro hcon
    have h2 := congrArg List.length hcon
    rw [initPosRaw_length] at h2
    simp only [List.length_nil] at h2
    have h3 : 0 < 4 * Nc ^ 3 := by positivity
    omega
  refine ⟨?_, ?_, ?_, ?_, ?_⟩
  · simp only [MD_initPos]
    exact initPosRaw_length Nc lat
  · simp only [MD_initPos, List.length_map]
    exact initPosRaw_length Nc lat
  · simp only [MD_initPos, List.map_map, Function.comp]
    exact recenter_fold_zero _ (fun p => p.x) hne
  · simp only [MD_initPos, List.map_map, Function.comp]
    exact recenter_fold_zero _ (fun p => p.y) hne
  · simp only [MD_initPos, List.map_map, Function.comp]
    exact recenter_fold_zero _ (fun p => p.z) hne

/-- Claim C9: `MD_initVel` assigns one velocity per input random triple (speed
`sqrt(3*Tg)` along the normalized triple, see `initVelPre`) and, after the per-axis
mean subtraction, the componentwise sum of all velocities is exactly zero for any
nonempty input. -/
theorem MD_initVel_momentum (sqrt : α → α) (Tg : α) (rnds : List (Vec3 α))
    (h : rnds ≠ []) :
    (MD_initVel sqrt Tg rnds).length = rnds.length ∧
    ((MD_initVel sqrt Tg rnds).map (fun w => w.x)).sum = 0 ∧
    ((MD_initVel sqrt Tg rnds).map (fun w => w.y)).sum = 0 ∧
    ((MD_initVel sqrt Tg rnds).map (fun w => w.z)).sum = 0 := by
  have hne : initVelPre sqrt Tg rnds ≠ [] := by
    simp [initVelPre, h]
  refine ⟨?_, ?_, ?_, ?_⟩
  · simp [MD_initVel, initVelPre]
  · simp only [MD_initVel, List.map_map, Function.comp_def, List.length_map]
    exact recenter_fold_zero _ (fun w => w.x) hne
  · simp only [MD_initVel, List.map_map, Function.comp_def, List.length_map]
    exact recenter_fold_zero _ (fun w => w.y) hne
  · simp only [MD_initVel, List.map_map, Function.comp_def, List.length_map]
    exact recenter_fold_zero _ (fun w => w.z) hne

/-- Claim C8, witness: the lattice theorem instantiated at `Nc = 1`,
lattice constant 2. -/
theorem MD_initPos_centroid_witness :
    (1 : ℕ) ≤ 1 ∧
    ((MD_initPos 1 (2 : ℚ)).2 = 4 * 1 ^ 3 ∧
     (MD_initPos 1 (2 : ℚ)).1.length = 4 * 1 ^ 3 ∧
     ((MD_initPos 1 (2 : ℚ)).1.map (fun p => p.x)).sum = 0 ∧
     ((MD_initPos 1 (2 : ℚ)).1.map (fun p => p.y)).sum = 0 ∧
     ((MD_initPos 1 (2 : ℚ)).1.map (fun p => p.z)).sum = 0) :=
  ⟨by decide, MD_initPos_centroid 1 2 (by decide)⟩

def rndsW : List (Vec3 ℚ) := [⟨1, 2, 3⟩, ⟨1, 0, 0⟩]

/-- Claim C9, witness: the momentum theorem instantiated on a concrete two-draw
input list. -/
theorem MD_initVel_momentum_witness :
    rndsW ≠ [] ∧
    ((MD_initVel sqrtId 1 rndsW).length = rndsW.length ∧
     ((MD_initVel sqrtId 1 rndsW).map (fun w => w.x)).sum = 0 ∧
     ((MD_initVel sqrtId 1 rndsW).map (fun w => w.y)).sum = 0 ∧
     ((MD_initVel sqrtId 1 rndsW).map (fun w => w.z)).sum = 0) :=
  ⟨by simp [rndsW], MD_initVel_momentum sqrtId 1 rndsW (by simp [rndsW])⟩

/-- The claim's per-pair force contribution: direction `d / r` and magnitude
`Fr = 48*r^(-13) - 24*r^(-7)` written as powers of `r = sqrt(r2)`. -/
def forceTermSpec (sqrt : α → α) (rc2v periodiclen : α) (r : ℕ → Vec3 α)
    (n : ℕ) (p : ℕ × ℤ × ℤ × ℤ) : Vec3 α :=
  if nonSelf n p then
    let d := displ periodiclen r n p
    let r2 := dist2 periodiclen r n p
    if r2 ≤ rc2v then
      let rr := sqrt r2
      (d.divs rr).muls (48 * rr ^ (-13 : ℤ) - 24 * rr ^ (-7 : ℤ))
    else 0
  else 0

theorem forceTerm_eq_spec (sqrt : α → α) (rc2v periodiclen : α) (r : ℕ → Vec3 α)
    (n : ℕ) (p : ℕ × ℤ × ℤ × ℤ)
    (h : nonSelf n p → dist2 periodiclen r n p ≤ rc2v →
      sqrt (dist2 periodiclen r n p) * sqrt (dist2 periodiclen r n p) =
        dist2 periodiclen r n p ∧ sqrt (dist2 periodiclen r n p) ≠ 0) :
    forceTerm sqrt rc2v periodiclen r n p = forceTermSpec sqrt rc2v periodiclen r n p := by
  unfold forceTerm forceTermSpec
  by_cases h1 : nonSelf n p
  · simp only [if_pos h1]
    by_cases h2 : dist2 periodiclen r n p ≤ rc2v
    · simp only [if_pos h2]
      obtain ⟨hsq, hnz⟩ := h h1 h2
      congr 1
      set rr := sqrt (dist2 periodiclen r n p) with hrr
      rw [← hsq]
      have h13 : rr ^ (-13 : ℤ) = (rr ^ (13 : ℕ))⁻¹ := by
        rw [zpow_neg]
        norm_cast
      have h7 : rr ^ (-7 : ℤ) = (rr ^ (7 : ℕ))⁻¹ := by
        rw [zpow_neg]
        norm_cast
      rw [h13, h7]
      field_simp
      ring
    · simp only [if_neg h2]
  · simp only [if_neg h1]

/-- Claim C1: for every atom `n`, the force stored by `Calc_Forces` equals the sum
over every atom `m < NumAtom` and every image offset `(i,j,k)` of `[-3,3]^3`,
skipping exactly the pair with `n = m` and `i = j = k = 0`, of the contribution
`(d/r) * (48*r^(-13) - 24*r^(-7))` when `r2 <= rc^2` and zero otherwise — starting
from a zero accumulator regardless of the previous force values.  The hypothesis
`H` states that the external `sqrt` returns an actual nonzero square root on every
squared distance that enters the cutoff (the spec's own no-coincident-atoms
precondition). -/
theorem Calc_Forces_force_array (sqrt : α → α) (st : MDState α) (n : ℕ)
    (hn : n < st.NumAtom)
    (H : ∀ p ∈ pairCube st.NumAtom, nonSelf n p →
      dist2 st.periodiclen st.r n p ≤ rc2 →
      sqrt (dist2 st.periodiclen st.r n p) * sqrt (dist2 st.periodiclen st.r n p) =
        dist2 st.periodiclen st.r n p ∧
      sqrt (dist2 st.periodiclen st.r n p) ≠ 0) :
    (Calc_Forces sqrt st).F n =
      ∑ p ∈ pairCube st.NumAtom, forceTermSpec sqrt rc2 st.periodiclen st.r n p := by
  have h1 : (Calc_Forces sqrt st).F n =
      force sqrt rc2 st.periodiclen st.r st.NumAtom n 0 := by
    simp [Calc_Forces, Calc_Forces_TBB, Calc_Forces_GPU, init_force, hn]
  rw [h1, force_eq_acc_add_sum, zero_add]
  exact Finset.sum_congr rfl (fun p hp =>
    forceTerm_eq_spec sqrt rc2 st.periodiclen st.r n p (H p hp))

theorem int_one_le_sq {i : ℤ} (h : i ≠ 0) : 1 ≤ i * i := by
  rcases lt_or_gt_of_ne h with hneg | hpos
  · nlinarith
  · nlinarith

def stOne : MDState ℚ :=
  { r := fun _ => 0, r1 := fun _ => 0, V := fun _ => 0, F := fun _ => ⟨7, 7, 7⟩,
    NumAtom := 1, periodiclen := 100, Tg := 1, Up := 0, Uk := 0, Utot := 0,
    Tc := 0, t := 0, MD_iter := 1 }

theorem stOne_no_pair_in_cutoff : ∀ p ∈ pairCube stOne.NumAtom, nonSelf 0 p →
    dist2 stOne.periodiclen stOne.r 0 p ≤ rc2 →
    sqrtId (dist2 stOne.periodiclen stOne.r 0 p) *
      sqrtId (dist2 stOne.periodiclen stOne.r 0 p) =
        dist2 stOne.periodiclen stOne.r 0 p ∧
    sqrtId (dist2 stOne.periodiclen stOne.r 0 p) ≠ 0 := by
  rintro ⟨m, i, j, k⟩ hp hns hle
  exfalso
  simp only [pairCube, Finset.mem_product, Finset.mem_range, Finset.mem_Icc,
    stOne] at hp
  have hm : m = 0 := by omega
  subst hm
  simp only [nonSelf, ne_eq, not_true_eq_false, false_or] at hns
  simp only [dist2, displ, imageShift, stOne, Vec3.sub, Vec3.add, Vec3.zero_def,
    rc2, rc] at hle
  norm_num at hle
  have h1 : (1 : ℚ) ≤ (i : ℚ) * i + (j : ℚ) * j + (k : ℚ) * k := by
    have hj2 : (0 : ℚ) ≤ (j : ℚ) * j := mul_self_nonneg _
    have hi2 : (0 : ℚ) ≤ (i : ℚ) * i := mul_self_nonneg _
    have hk2 : (0 : ℚ) ≤ (k : ℚ) * k := mul_self_nonneg _
    rcases hns with h | h | h
    · have h2 : (1 : ℤ) ≤ i * i := int_one_le_sq h
      have h3 : (1 : ℚ) ≤ (i : ℚ) * i := by exact_mod_cast h2
      linarith
    · have h2 : (1 : ℤ) ≤ j * j := int_one_le_sq h
      have h3 : (1 : ℚ) ≤ (j : ℚ) * j := by exact_mod_cast h2
      linarith
    · have h2 : (1 : ℤ) ≤ k * k := int_one_le_sq h
      have h3 : (1 : ℚ) ≤ (k : ℚ) * k := by exact_mod_cast h2
      linarith
  nlinarith [hle, h1]

/-- Claim C1, witness: the force theorem instantiated on a concrete one-atom state
whose image cells all lie outside the cutoff. -/
theorem Calc_Forces_force_array_witness :
    0 < stOne.NumAtom ∧
    (Calc_Forces sqrtId stOne).F 0 =
      ∑ p ∈ pairCube stOne.NumAtom,
        forceTermSpec sqrtId rc2 stOne.periodiclen stOne.r 0 p :=
  ⟨by decide,
   Calc_Forces_force_array sqrtId stOne 0 (by decide) stOne_no_pair_in_cutoff⟩

/-- The value added to the thread-local `Up` accumulator by one iteration of the
energy loops, as a function of the full index `q = (n, (m, i, j, k))`. -/
def upTerm (periodiclen Vrcv : α) (r : ℕ → Vec3 α) (q : ℕ × ℕ × ℤ × ℤ × ℤ) : α :=
  if nonSelf q.1 q.2 then
    if dist2 periodiclen r q.1 q.2 ≤ rc2 then
      let r2 := dist2 periodiclen r q.1 q.2
      let rm6 := 1 / (r2 * r2 * r2)
      (1 / 2) * (4 * (rm6 * rm6 - rm6) - Vrcv)
    else 0
  else 0

/-- The unhalved pair potential `4*(rm12 - rm6) - Vrc` of the index `q`. -/
def pairPot (periodiclen Vrcv : α) (r : ℕ → Vec3 α) (q : ℕ × ℕ × ℤ × ℤ × ℤ) : α :=
  let r2 := dist2 periodiclen r q.1 q.2
  let rm6 := 1 / (r2 * r2 * r2)
  4 * (rm6 * rm6 - rm6) - Vrcv

theorem upBody_eq_add_term (periodiclen Vrcv : α) (r : ℕ → Vec3 α)
    (n m : ℕ) (i j k : ℤ) (acc : α) :
    upBody periodiclen Vrcv r n m i j k acc =
      acc + upTerm periodiclen Vrcv r (n, m, i, j, k) := by
  simp only [upBody, upTerm, nonSelf, dist2, displ, imageShift, norm2,
    Vec3.sub, Vec3.add]
  by_cases h1 : n ≠ m ∨ i ≠ 0 ∨ j ≠ 0 ∨ k ≠ 0
  · simp only [if_pos h1]
    split
    · rfl
    · exact (add_zero acc).symm
  · simp only [if_neg h1, add_zero]

/-- The index set of the full energy double loop: outer atom `n`, inner atom `m`,
image cells of `[-3, 3]^3`. -/
def upCube (numatom : ℕ) : Finset (ℕ × ℕ × ℤ × ℤ × ℤ) :=
  Finset.range numatom ×ˢ pairCube numatom

theorem Up_loop_eq_sum (periodiclen Vrcv : α) (r : ℕ → Vec3 α) (numatom : ℕ) :
    Up_loop periodiclen Vrcv r numatom =
      ∑ q ∈ upCube numatom, upTerm periodiclen Vrcv r q := by
  have h5 : ∀ (a : α) (n m : ℕ) (i j : ℤ),
      cellRange.foldl (fun acc k => upBody periodiclen Vrcv r n m i j k acc) a =
        a + ∑ k ∈ Finset.Icc (-3 : ℤ) 3, upTerm periodiclen Vrcv r (n, m, i, j, k) := by
    intro a n m i j
    rw [foldl_step_sum _ (fun k => upTerm periodiclen Vrcv r (n, m, i, j, k))
      (fun a k => upBody_eq_add_term periodiclen Vrcv r n m i j k a) cellRange a,
      sum_map_cellRange]
  have h4 : ∀ (a : α) (n m : ℕ) (i : ℤ),
      cellRange.foldl (fun acc j =>
        cellRange.foldl (fun acc k => upBody periodiclen Vrcv r n m i j k acc) acc) a =
        a + ∑ j ∈ Finset.Icc (-3 : ℤ) 3, ∑ k ∈ Finset.Icc (-3 : ℤ) 3,
          upTerm periodiclen Vrcv r (n, m, i, j, k) := by
    intro a n m i
    rw [foldl_step_sum _ (fun j => ∑ k ∈ Finset.Icc (-3 : ℤ) 3,
        upTerm periodiclen Vrcv r (n, m, i, j, k)) (fun a j => h5 a n m i j)
      cellRange a, sum_map_cellRange]
  have h3 : ∀ (a : α) (n m : ℕ),
      cellRange.foldl (fun acc i =>
        cellRange.foldl (fun acc j =>
          cellRange.foldl (fun acc k =>
            upBody periodiclen Vrcv r n m i j k acc) acc) acc) a =
        a + ∑ i ∈ Finset.Icc (-3 : ℤ) 3, ∑ j ∈ Finset.Icc (-3 : ℤ) 3,
            ∑ k ∈ Finset.Icc (-3 : ℤ) 3, upTerm periodiclen Vrcv r (n, m, i, j, k) := by
    intro a n m
    rw [foldl_step_sum _ (fun i => ∑ j ∈ Finset.Icc (-3 : ℤ) 3,
        ∑ k ∈ Finset.Icc (-3 : ℤ) 3, upTerm periodiclen Vrcv r (n, m, i, j, k))
      (fun a i => h4 a n m i) cellRange a, sum_map_cellRange]
  have h2 : ∀ (a : α) (n : ℕ),
      (List.range numatom).foldl (fun acc m =>
        cellRange.foldl (fun acc i =>
          cellRange.foldl (fun acc j =>
            cellRange.foldl (fun acc k =>
              upBody periodiclen Vrcv r n m i j k acc) acc) acc) acc) a =
        a + ∑ m ∈ Finset.range numatom, ∑ i ∈ Finset.Icc (-3 : ℤ) 3,
            ∑ j ∈ Finset.Icc (-3 : ℤ) 3, ∑ k ∈ Finset.Icc (-3 : ℤ) 3,
          upTerm periodiclen Vrcv r (n, m, i, j, k) := by
    intro a n
    rw [foldl_step_sum _ (fun m => ∑ i ∈ Finset.Icc (-3 : ℤ) 3,
        ∑ j ∈ Finset.Icc (-3 : ℤ) 3, ∑ k ∈ Finset.Icc (-3 : ℤ) 3,
        upTerm periodiclen Vrcv r (n, m, i, j, k)) (fun a m => h3 a n m)
      (List.range numatom) a, sum_map_range]
  unfold Up_loop
  rw [foldl_step_sum _ (fun n => ∑ m ∈ Finset.range numatom,
      ∑ i ∈ Finset.Icc (-3 : ℤ) 3, ∑ j ∈ Finset.Icc (-3 : ℤ) 3,
      ∑ k ∈ Finset.Icc (-3 : ℤ) 3, upTerm periodiclen Vrcv r (n, m, i, j, k))
    (fun a n => h2 a n) (List.range numatom) 0, zero_add, sum_map_range]
  simp only [upCube, pairCube, Finset.sum_product]

/-- Swapping the roles of the two atoms and negating the image cell: the companion
index under which the ordered double loop counts every unordered pair twice. -/
def flipPair (q : ℕ × ℕ × ℤ × ℤ × ℤ) : ℕ × ℕ × ℤ × ℤ × ℤ :=
  (q.2.1, q.1, -q.2.2.1, -q.2.2.2.1, -q.2.2.2.2)

theorem flipPair_flipPair (q : ℕ × ℕ × ℤ × ℤ × ℤ) : flipPair (flipPair q) = q := by
  obtain ⟨n, m, i, j, k⟩ := q
  simp [flipPair]

/-- An injective key on the loop indices (image offsets shifted into `[0, 6]`),
used to pick one canonical representative from each unordered pair. -/
def pairKey (q : ℕ × ℕ × ℤ × ℤ × ℤ) : ℕ :=
  Nat.pair (Nat.pair q.1 q.2.1)
    ((q.2.2.1 + 3) + 7 * (q.2.2.2.1 + 3) + 49 * (q.2.2.2.2 + 3)).toNat

theorem pairKey_inj {q q' : ℕ × ℕ × ℤ × ℤ × ℤ}
    (hq : q.2.2.1 ∈ Finset.Icc (-3 : ℤ) 3 ∧ q.2.2.2.1 ∈ Finset.Icc (-3 : ℤ) 3 ∧
      q.2.2.2.2 ∈ Finset.Icc (-3 : ℤ) 3)
    (hq' : q'.2.2.1 ∈ Finset.Icc (-3 : ℤ) 3 ∧ q'.2.2.2.1 ∈ Finset.Icc (-3 : ℤ) 3 ∧
      q'.2.2.2.2 ∈ Finset.Icc (-3 : ℤ) 3)
    (h : pairKey q = pairKey q') : q = q' := by
  obtain ⟨n, m, i, j, k⟩ := q
  obtain ⟨n', m', i', j', k'⟩ := q'
  simp only [Finset.mem_Icc] at hq hq'
  unfold pairKey at h
  simp only [Nat.pair_eq_pair] at h
  obtain ⟨⟨hn, hm⟩, he⟩ := h
  simp only [Prod.mk.injEq]
  refine ⟨hn, hm, ?_, ?_, ?_⟩ <;> omega

theorem nonSelf_flip (q : ℕ × ℕ × ℤ × ℤ × ℤ) :
    nonSelf (flipPair q).1 (flipPair q).2 ↔ nonSelf q.1 q.2 := by
  obtain ⟨n, m, i, j, k⟩ := q
  simp only [nonSelf, flipPair]
  omega

theorem dist2_flip (periodiclen : α) (r : ℕ → Vec3 α) (q : ℕ × ℕ × ℤ × ℤ × ℤ) :
    dist2 periodiclen r (flipPair q).1 (flipPair q).2 = dist2 periodiclen r q.1 q.2 := by
  obtain ⟨n, m, i, j, k⟩ := q
  simp only [dist2, displ, imageShift, flipPair, Vec3.sub, Vec3.add]
  push_cast
  ring

theorem pairPot_flip (periodiclen Vrcv : α) (r : ℕ → Vec3 α)
    (q : ℕ × ℕ × ℤ × ℤ × ℤ) :
    pairPot periodiclen Vrcv r (flipPair q) = pairPot periodiclen Vrcv r q := by
  unfold pairPot
  rw [dist2_flip]

theorem flipPair_mem (N : ℕ) (q : ℕ × ℕ × ℤ × ℤ × ℤ) (hq : q ∈ upCube N) :
    flipPair q ∈ upCube N := by
  obtain ⟨n, m, i, j, k⟩ := q
  simp only [upCube, pairCube, Finset.mem_product, Finset.mem_range,
    Finset.mem_Icc, flipPair] at hq ⊢
  omega

theorem flipPair_ne_self (q : ℕ × ℕ × ℤ × ℤ × ℤ) (h : nonSelf q.1 q.2) :
    flipPair q ≠ q := by
  obtain ⟨n, m, i, j, k⟩ := q
  simp only [nonSelf] at h
  simp only [flipPair, ne_eq, Prod.mk.injEq, not_and]
  omega

theorem upTerm_eq_ite (periodiclen Vrcv : α) (r : ℕ → Vec3 α)
    (q : ℕ × ℕ × ℤ × ℤ × ℤ) :
    upTerm periodiclen Vrcv r q =
      if nonSelf q.1 q.2 ∧ dist2 periodiclen r q.1 q.2 ≤ rc2 then
        (1 / 2) * pairPot periodiclen Vrcv r q
      else 0 := by
  unfold upTerm pairPot
  by_cases h1 : nonSelf q.1 q.2
  · by_cases h2 : dist2 periodiclen r q.1 q.2 ≤ rc2
    · simp [h1, h2]
    · simp [h1, h2]
  · simp [h1]

/-- The canonical set of unordered in-cutoff pairs: one representative (the one with
the smaller key) of each `flipPair` orbit of the computed (non-self, in-cutoff) loop
indices. -/
def upPairsHalf (periodiclen : α) (r : ℕ → Vec3 α) (numatom : ℕ) :
    Finset (ℕ × ℕ × ℤ × ℤ × ℤ) :=
  (upCube numatom).filter (fun q =>
    nonSelf q.1 q.2 ∧ dist2 periodiclen r q.1 q.2 ≤ rc2 ∧
      pairKey q < pairKey (flipPair q))

theorem sum_upTerm_eq_half_sum (periodiclen Vrcv : α) (r : ℕ → Vec3 α) (N : ℕ) :
    ∑ q ∈ upCube N, upTerm periodiclen Vrcv r q =
      ∑ q ∈ upPairsHalf periodiclen r N, pairPot periodiclen Vrcv r q := by
  have hbound : ∀ q ∈ upCube N,
      q.2.2.1 ∈ Finset.Icc (-3 : ℤ) 3 ∧ q.2.2.2.1 ∈ Finset.Icc (-3 : ℤ) 3 ∧
        q.2.2.2.2 ∈ Finset.Icc (-3 : ℤ) 3 := by
    rintro ⟨n, m, i, j, k⟩ hq
    simp only [upCube, pairCube, Finset.mem_product, Finset.mem_range,
      Finset.mem_Icc] at hq
    simp only [Finset.mem_Icc]
    omega
  have hS : ∑ q ∈ upCube N, upTerm periodiclen Vrcv r q =
      ∑ q ∈ (upCube N).filter (fun q =>
        nonSelf q.1 q.2 ∧ dist2 periodiclen r q.1 q.2 ≤ rc2),
        (1 / 2) * pairPot periodiclen Vrcv r q := by
    rw [Finset.sum_filter]
    exact Finset.sum_congr rfl (fun q _ => upTerm_eq_ite periodiclen Vrcv r q)
  rw [hS]
  set S := (upCube N).filter (fun q =>
    nonSelf q.1 q.2 ∧ dist2 periodiclen r q.1 q.2 ≤ rc2) with hSdef
  have hflipS : ∀ q ∈ S, flipPair q ∈ S := by
    intro q hq
    rw [hSdef, Finset.mem_filter] at hq ⊢
    exact ⟨flipPair_mem N q hq.1,
      (nonSelf_flip q).mpr hq.2.1,
      by rw [dist2_flip]; exact hq.2.2⟩
  have hkeyne : ∀ q ∈ S, pairKey q ≠ pairKey (flipPair q) := by
    intro q hq hkey
    rw [hSdef, Finset.mem_filter] at hq
    have h1 := pairKey_inj (hbound q hq.1) (hbound (flipPair q) (flipPair_mem N q hq.1)) hkey
    exact flipPair_ne_self q hq.2.1 h1.symm
  rw [← Finset.sum_filter_add_sum_filter_not S
    (fun q => pairKey q < pairKey (flipPair q))]
  have hswap : ∑ q ∈ S.filter (fun q => ¬ pairKey q < pairKey (flipPair q)),
      (1 / 2) * pairPot periodiclen Vrcv r q =
      ∑ q ∈ S.filter (fun q => pairKey q < pairKey (flipPair q)),
        (1 / 2) * pairPot periodiclen Vrcv r q := by
    refine Finset.sum_nbij' flipPair flipPair ?_ ?_ ?_ ?_ ?_
    · intro q hq
      rw [Finset.mem_filter] at hq ⊢
      refine ⟨hflipS q hq.1, ?_⟩
      rw [flipPair_flipPair]
      have h1 := hkeyne q hq.1
      have h2 := hq.2
      omega
    · intro q hq
      rw [Finset.mem_filter] at hq ⊢
      refine ⟨hflipS q hq.1, ?_⟩
      rw [flipPair_flipPair]
      have h2 := hq.2
      omega
    · intro q _
      exact flipPair_flipPair q
    · intro q _
      exact flipPair_flipPair q
    · intro q _
      rw [pairPot_flip]
  rw [hswap, ← Finset.sum_add_distrib]
  have hhalf : upPairsHalf periodiclen r N =
      S.filter (fun q => pairKey q < pairKey (flipPair q)) := by
    rw [hSdef, Finset.filter_filter]
    unfold upPairsHalf
    congr 1
    funext q
    rw [and_assoc]
  rw [hhalf]
  exact Finset.sum_congr rfl (fun q _ => by ring)

/-- Claim C6: `Vrc = 4*(rc^(-12) - rc^(-6))`; the potential energy stored by
`Calc_Forces` is the sum of `0.5*(4*(rm12 - rm6) - Vrc)` over every non-self pair
within the cutoff of the ordered enumeration (the same pair/image enumeration as
the force sum, with `rm6 = 1/r2^3` so that `rm12` and `rm6` are `r^(-12)` and
`r^(-6)`), and it equals the sum of the full `4*(rm12 - rm6) - Vrc` over the
unordered in-cutoff pairs (`upPairsHalf` keeps one canonical representative of each
`flipPair` orbit). -/
theorem Calc_Forces_potential_energy (sqrt : α → α) (st : MDState α) :
    (Vrc : α) = 4 * (rcm12 - rcm6) ∧
    (Calc_Forces sqrt st).Up =
      ∑ q ∈ (upCube st.NumAtom).filter (fun q =>
          nonSelf q.1 q.2 ∧ dist2 st.periodiclen st.r q.1 q.2 ≤ rc2),
        (1 / 2) * pairPot st.periodiclen Vrc st.r q ∧
    (Calc_Forces sqrt st).Up =
      ∑ q ∈ upPairsHalf st.periodiclen st.r st.NumAtom,
        pairPot st.periodiclen Vrc st.r q := by
  have h0 : (Calc_Forces sqrt st).Up =
      Up_loop st.periodiclen Vrc st.r st.NumAtom := rfl
  have h1 : (Calc_Forces sqrt st).Up =
      ∑ q ∈ upCube st.NumAtom, upTerm st.periodiclen Vrc st.r q := by
    rw [h0, Up_loop_eq_sum]
  refine ⟨rfl, ?_, ?_⟩
  · rw [h1, Finset.sum_filter]
    exact Finset.sum_congr rfl (fun q _ => upTerm_eq_ite st.periodiclen Vrc st.r q)
  · rw [h1, sum_upTerm_eq_half_sum]

/-- Two atoms one reduced length unit apart in a large box: only the non-shifted
ordered pairs lie within the cutoff. -/
def stPair : MDState ℚ :=
  { r := fun n => if n = 0 then ⟨0, 0, 0⟩ else ⟨1, 0, 0⟩, r1 := fun _ => 0,
    V := fun _ => 0, F := fun _ => 0, NumAtom := 2, periodiclen := 100, Tg := 1,
    Up := 0, Uk := 0, Utot := 0, Tc := 0, t := 0, MD_iter := 1 }

theorem stPair_offterm : ∀ b ∈ pairCube stPair.NumAtom,
    b ≠ ((1 : ℕ), (0 : ℤ), (0 : ℤ), (0 : ℤ)) →
    forceTerm sqrtId rc2 stPair.periodiclen stPair.r 0 b = 0 := by
  rintro ⟨m, i, j, k⟩ hb hne
  simp only [pairCube, Finset.mem_product, Finset.mem_range, Finset.mem_Icc] at hb
  unfold forceTerm
  by_cases hns : nonSelf 0 (m, i, j, k)
  · rw [if_pos hns]
    have hfar : ¬ dist2 stPair.periodiclen stPair.r 0 (m, i, j, k) ≤ rc2 := by
      have hm2 : m < 2 := hb.1
      have hm : m = 0 ∨ m = 1 := by omega
      have hij : ¬ (i = 0 ∧ j = 0 ∧ k = 0) ∨ m = 0 := by
        rcases hm with h | h
        · right; exact h
        · left
          intro hcon
          exact hne (by simp [h, hcon.1, hcon.2.1, hcon.2.2])
      simp only [dist2, displ, imageShift, stPair, Vec3.sub, Vec3.add,
        Vec3.zero_def, rc2, rc]
      rcases hm with h | h
      · subst h
        simp only [nonSelf, ne_eq, not_true_eq_false, false_or] at hns
        norm_num
        have h1 : (1 : ℚ) ≤ (i : ℚ) * i + (j : ℚ) * j + (k : ℚ) * k := by
          have hj2 : (0 : ℚ) ≤ (j : ℚ) * j := mul_self_nonneg _
          have hi2 : (0 : ℚ) ≤ (i : ℚ) * i := mul_self_nonneg _
          have hk2 : (0 : ℚ) ≤ (k : ℚ) * k := mul_self_nonneg _
          rcases hns with h | h | h
          · have h3 : (1 : ℚ) ≤ (i : ℚ) * i := by exact_mod_cast int_one_le_sq h
            linarith
          · have h3 : (1 : ℚ) ≤ (j : ℚ) * j := by exact_mod_cast int_one_le_sq h
            linarith
          · have h3 : (1 : ℚ) ≤ (k : ℚ) * k := by exact_mod_cast int_one_le_sq h
            linarith
        nlinarith [h1]
      · subst h
        simp only [OfNat.ofNat_ne_zero, if_neg, Nat.one_ne_zero]
        norm_num
        have hijk : ¬ (i = 0 ∧ j = 0 ∧ k = 0) := by
          rcases hij with h | h
          · exact h
          · omega
        have hj2 : (0 : ℚ) ≤ (100 * (j : ℚ)) * (100 * (j : ℚ)) := mul_self_nonneg _
        have hk2 : (0 : ℚ) ≤ (100 * (k : ℚ)) * (100 * (k : ℚ)) := mul_self_nonneg _
        have hu2 : (0 : ℚ) ≤ (1 + 100 * (i : ℚ)) * (1 + 100 * (i : ℚ)) :=
          mul_self_nonneg _
        by_cases hj : j = 0
        · by_cases hk : k = 0
          · have hi : i ≠ 0 := by tauto
            have h4 : (1 : ℚ) ≤ (i : ℚ) * i := by exact_mod_cast int_one_le_sq hi
            rcases lt_or_gt_of_ne hi with hneg | hpos
            · have h5i : i ≤ -1 := by omega
              have h5 : (i : ℚ) ≤ -1 := by exact_mod_cast h5i
              nlinarith [mul_self_nonneg (1 + 100 * (i : ℚ) + 99)]
            · have h5i : (1 : ℤ) ≤ i := by omega
              have h5 : (1 : ℚ) ≤ (i : ℚ) := by exact_mod_cast h5i
              nlinarith [mul_self_nonneg (1 + 100 * (i : ℚ) - 101)]
          · have h4 : (1 : ℚ) ≤ (k : ℚ) * k := by exact_mod_cast int_one_le_sq hk
            nlinarith
        · have h4 : (1 : ℚ) ≤ (j : ℚ) * j := by exact_mod_cast int_one_le_sq hj
          nlinarith
    rw [if_neg hfar]
  · rw [if_neg hns]

theorem stPair_gpu_force : (Calc_Forces_GPU sqrtId stPair).F 0 = ⟨-24, 0, 0⟩ := by
  have hn : 0 < stPair.NumAtom := by norm_num [stPair]
  have h1 : (Calc_Forces_GPU sqrtId stPair).F 0 =
      force sqrtId rc2 stPair.periodiclen stPair.r stPair.NumAtom 0 0 := by
    simp [Calc_Forces_GPU, init_force, hn]
  have hmem : ((1 : ℕ), (0 : ℤ), (0 : ℤ), (0 : ℤ)) ∈ pairCube stPair.NumAtom := by
    simp [pairCube, Finset.mem_product, Finset.mem_range, Finset.mem_Icc]
    norm_num [stPair]
  rw [h1, force_eq_acc_add_sum, zero_add,
    Finset.sum_eq_single_of_mem ((1 : ℕ), (0 : ℤ), (0 : ℤ), (0 : ℤ))
      hmem stPair_offterm]
  norm_num [forceTerm, nonSelf, dist2, displ, imageShift, stPair, sqrtId, rc2, rc,
    Vec3.sub, Vec3.add, Vec3.divs, Vec3.muls, Vec3.zero_def]

/-- Claim C5, counterexample: on two atoms one length unit apart the TBB loop of
`Calc_Forces` leaves the force array untouched (its force accumulation is commented
out in the source) while the GPU kernel computes `(-24, 0, 0)`, so the two parts do
not produce numerically equivalent force vectors. -/
theorem Calc_Forces_backends_counterexample :
    (Calc_Forces_TBB stPair).F 0 ≠ (Calc_Forces_GPU sqrtId stPair).F 0 := by
  have hT : (Calc_Forces_TBB stPair).F 0 = 0 := rfl
  rw [hT, stPair_gpu_force]
  intro hcon
  rw [Vec3.zero_def] at hcon
  simp only [Vec3.mk.injEq] at hcon
  norm_num at hcon

/-- Claim C5 (amended): `Calc_Forces` is a single hybrid evaluation, not two
interchangeable backends: the force array comes from the GPU kernel (one work item
per atom, equal to the pair/image sum of `forceTerm`), the potential energy comes
from the CPU TBB reduction, the TBB stage never writes the force array, and the
GPU stage never writes the potential energy. -/
theorem Calc_Forces_backend_split (sqrt : α → α) (st : MDState α) :
    (∀ n, n < st.NumAtom → (Calc_Forces sqrt st).F n =
      ∑ p ∈ pairCube st.NumAtom, forceTerm sqrt rc2 st.periodiclen st.r n p) ∧
    (Calc_Forces_TBB st).F = st.F ∧
    (Calc_Forces_GPU sqrt st).Up = st.Up ∧
    (Calc_Forces sqrt st).F = (Calc_Forces_GPU sqrt st).F ∧
    (Calc_Forces sqrt st).Up = (Calc_Forces_TBB st).Up := by
  refine ⟨?_, rfl, rfl, rfl, rfl⟩
  intro n hn
  have h1 : (Calc_Forces sqrt st).F n =
      force sqrt rc2 st.periodiclen st.r st.NumAtom n 0 := by
    simp [Calc_Forces, Calc_Forces_TBB, Calc_Forces_GPU, init_force, hn]
  rw [h1, force_eq_acc_add_sum, zero_add]

/-- Claim C5, witness: the hybrid-split theorem instantiated on the concrete
two-atom state. -/
theorem Calc_Forces_backend_split_witness :
    0 < stPair.NumAtom ∧
    (Calc_Forces sqrtId stPair).F 0 =
      ∑ p ∈ pairCube stPair.NumAtom,
        forceTerm sqrtId rc2 stPair.periodiclen stPair.r 0 p :=
  ⟨by decide, (Calc_Forces_backend_split sqrtId stPair).1 0 (by decide)⟩
